import Mathlib

/-!
Verification of the CRISPRCasIdentifier core pipeline
(`CrisprCasIdentifier.py`): gene-record construction, annotation
resolution by best bitscore, cascade detection over the ordered gene
table, missing-feature imputation, and prediction-row accumulation.
The Python functions are shallowly embedded as executable Lean
definitions; bitscores are modelled as rationals and data frames as
association lists keyed by gene identifier.
-/

/-- A gene record row of the annotated protein table used by
`build_cascades` for genomic input: columns `start`, `end` and
`annotation`. -/
structure GRec where
  start : Int
  stop : Int
  ann : String
deriving DecidableEq, Repr

/-- The mutable scan state of the genomic branch of `build_cascades`:
the emitted `cascades`, the in-progress `indices_cascade` list (each
entry keeps its table position together with its row), the `gap`
counter and the annotated-gene counter `cas_count`. -/
structure CState where
  cascades : List (List (Nat × GRec))
  indicesCascade : List (Nat × GRec)
  gap : Nat
  casCount : Nat
deriving DecidableEq, Repr

/-- Initial scan state of `build_cascades`. -/
def initCState : CState := ⟨[], [], 0, 0⟩

/-- The trailing-trim loop of `build_cascades`: pop entries from the end
of `indices_cascade` while their annotation is `"unknown"`. -/
def trimTrailingUnknown (l : List (Nat × GRec)) : List (Nat × GRec) :=
  (l.reverse.dropWhile (fun p => p.2.ann = "unknown")).reverse

/-- One iteration of the genomic scan loop of `build_cascades`
(`for i, (idx, row) in enumerate(protein_df.iterrows())`), for table
position `i` with row `r` and neighbour distance `ntDiff`. -/
def cascadeStep (maxGap minProteins : Nat) (maxNtDiff : Int)
    (s : CState) (i : Nat) (ntDiff : Int) (r : GRec) : CState :=
  if ((r.ann ≠ "unknown" ∧ s.indicesCascade = []) ∨
      (r.ann ≠ "unknown" ∧ ntDiff ≤ maxNtDiff)) ∧ s.gap ≤ maxGap then
    { s with indicesCascade := s.indicesCascade ++ [(i, r)], gap := 0,
             casCount := s.casCount + 1 }
  else if 0 < i ∧ s.indicesCascade ≠ [] ∧ r.ann = "unknown" ∧
      ntDiff ≤ maxNtDiff ∧ s.gap < maxGap then
    { s with indicesCascade := s.indicesCascade ++ [(i, r)],
             gap := s.gap + 1 }
  else if s.indicesCascade ≠ [] ∧ minProteins ≤ s.casCount then
    { s with cascades := s.cascades ++ [trimTrailingUnknown s.indicesCascade],
             indicesCascade := [], gap := 0, casCount := 0 }
  else
    { s with indicesCascade := [], gap := 0, casCount := 0 }

/-- The genomic scan loop of `build_cascades`, threading the position
`i` and the previous row (for `nt_diff = row.start - prev.end`, taken
as `0` at the first row). -/
def cascadeRun (maxGap minProteins : Nat) (maxNtDiff : Int) :
    Nat → Option GRec → CState → List GRec → CState
  | _, _, s, [] => s
  | i, prev, s, r :: rest =>
    let ntDiff : Int :=
      match prev with
      | none => 0
      | some p => r.start - p.stop
    cascadeRun maxGap minProteins maxNtDiff (i + 1) (some r)
      (cascadeStep maxGap minProteins maxNtDiff s i ntDiff r) rest

/-- Final scan state of `build_cascades` on a genomic record table. -/
def cascadeRunState (maxGap minProteins : Nat) (maxNtDiff : Int)
    (records : List GRec) : CState :=
  cascadeRun maxGap minProteins maxNtDiff 0 none initCState records

/-- The genomic (`sequence_type == 'dna'`) branch of `build_cascades`:
the list of emitted cascades, in detection order (cascade `k` of the
output carries cascade id `k+1`).  The in-progress list left at the end
of the scan is not part of the output. -/
def build_cascades_dna (maxGap minProteins : Nat) (maxNtDiff : Int)
    (records : List GRec) : List (List (Nat × GRec)) :=
  (cascadeRunState maxGap minProteins maxNtDiff records).cascades

/-- The protein branch of `build_cascades`: every row of the table is
tagged with cascade id 1, so the whole table forms a single cascade
(empty input yields no cascade). -/
def build_cascades_protein (records : List GRec) :
    List (List (Nat × GRec)) :=
  if records.isEmpty then [] else [records.enum]

/-- `build_cascades`, dispatching on the sequence type. -/
def build_cascades (seqType : String) (maxGap minProteins : Nat)
    (maxNtDiff : Int) (records : List GRec) : List (List (Nat × GRec)) :=
  if seqType = "protein" then build_cascades_protein records
  else build_cascades_dna maxGap minProteins maxNtDiff records

/-- Number of genes of a cascade carrying a non-`"unknown"` annotation. -/
def countAnnotated (c : List (Nat × GRec)) : Nat :=
  (c.filter (fun p => p.2.ann ≠ "unknown")).length

/-- The six-record genomic table of the specification's fabricated
example: annotations `[A, unknown, A, unknown, unknown, A]`, all
coordinates 0 so that every `nt_diff` is 0. -/
def exampleRecords : List GRec :=
  [⟨0, 0, "A"⟩, ⟨0, 0, "unknown"⟩, ⟨0, 0, "A"⟩,
   ⟨0, 0, "unknown"⟩, ⟨0, 0, "unknown"⟩, ⟨0, 0, "A"⟩]

/-- A line of an hmmsearch hit-table file, as read by `add_bitscores`:
either a `#`-comment line, or a data line carrying the target gene
identifier (field 0), the bitscore (field 5) and the last
whitespace-delimited field (used for the `dna` id suffix). -/
inductive HLine where
  | comment : HLine
  | row (target : String) (bitscore : ℚ) (lastField : String) : HLine
deriving DecidableEq, Repr

/-- The gene identifier a data line refers to: for `dna` input the
target is suffixed with the first `;`-delimited part of the line's
last field, mirroring `parse_protein_id_from_dna`. -/
def lineId (seqType : String) (target lastField : String) : String :=
  if seqType = "dna" then
    target ++ "_" ++ ((lastField.splitOn ";").headD "")
  else target

/-- The annotated gene table of `add_bitscores`: an association list
from gene identifier to its stored (bitscore, annotation) pair, in
table order.  Identifiers are unique (`build_initial_dataframe`
deduplicates them). -/
abbrev GeneDF : Type := List (String × (ℚ × String))

/-- `protein_df.at[g, ...]`: the stored pair of gene `g`, if present. -/
def dfLookup (df : GeneDF) (g : String) : Option (ℚ × String) :=
  (df.find? (fun p => p.1 = g)).map Prod.snd

/-- Writing `protein_df.at[g, ...]`: replace the stored pair of every
row keyed `g` (there is at most one). -/
def dfSet (df : GeneDF) (g : String) (v : ℚ × String) : GeneDF :=
  df.map (fun p => if p.1 = g then (p.1, v) else p)

/-- The gene identifiers (index) of the table. -/
def dfKeys (df : GeneDF) : List String :=
  df.map Prod.fst

/-- Processing of one hit-table line by `add_bitscores` for a file with
(synonym-normalized) annotation `ann`: comment lines are skipped; a
data line whose gene identifier is absent from the table raises a
lookup error naming that identifier; otherwise the stored pair is
overwritten exactly when the line's bitscore is strictly greater than
the stored one. -/
def add_bitscores_line (seqType ann : String) (df : GeneDF) :
    HLine → Except String GeneDF
  | .comment => .ok df
  | .row target bitscore lastField =>
    let id_ := lineId seqType target lastField
    match dfLookup df id_ with
    | none => .error id_
    | some (b, _) =>
      if bitscore > b then .ok (dfSet df id_ (bitscore, ann))
      else .ok df

/-- Processing of the lines of one hit-table file by `add_bitscores`,
in order, stopping at the first failing line. -/
def add_bitscores_lines (seqType ann : String) (df : GeneDF) :
    List HLine → Except String GeneDF
  | [] => .ok df
  | l :: rest =>
    match add_bitscores_line seqType ann df l with
    | .error e => .error e
    | .ok df2 => add_bitscores_lines seqType ann df2 rest

/-- The per-gene update of `add_bitscores` (lines 160–162 of the
source), restricted to one gene: an incoming (bitscore, annotation)
row replaces the stored pair exactly when its bitscore is strictly
greater. -/
def geneStep (s r : ℚ × String) : ℚ × String :=
  if r.1 > s.1 then r else s

/-- The stored (bitscore, annotation) pair of one gene after
`add_bitscores` has processed, in order, a given sequence of hit-table
rows mentioning that gene, starting from the initialization
(bitscore −1, annotation "unknown"). -/
def geneFold (rows : List (ℚ × String)) : ℚ × String :=
  rows.foldl geneStep (-1, "unknown")

/-- A parsed sequence header, as consumed by `build_initial_dataframe`:
the gene identifier and, for genomic input, the coordinates and strand
parsed by `parse_protein_id_from_dna`. -/
structure FHeader where
  id : String
  start : Int
  stop : Int
  strand : Int
deriving DecidableEq, Repr

/-- The gene-record row built from a header: coordinates are kept only
for `dna` input. -/
def headerRow (seqType : String) (h : FHeader) :
    String × Option (Int × Int × Int) :=
  (h.id, if seqType = "dna" then some (h.start, h.stop, h.strand) else none)

/-- The header loop of `build_initial_dataframe`, threading the
`protein_ids` list of identifiers already seen: a header whose
identifier was seen before is skipped entirely. -/
def build_initial_dataframe_aux (seqType : String) :
    List FHeader → List String → List (String × Option (Int × Int × Int))
  | [], _ => []
  | h :: t, seen =>
    if h.id ∈ seen then build_initial_dataframe_aux seqType t seen
    else headerRow seqType h ::
      build_initial_dataframe_aux seqType t (seen ++ [h.id])

/-- `build_initial_dataframe`: one gene-record row per distinct header
identifier, in order of first appearance. -/
def build_initial_dataframe (seqType : String) (headers : List FHeader) :
    List (String × Option (Int × Int × Int)) :=
  build_initial_dataframe_aux seqType headers []

/-- Reference extraction following the specification's wording: keep
each header whose identifier has not appeared in an earlier header,
in input order, taking the first occurrence's coordinates. -/
def distinctFirst (seqType : String) :
    List FHeader → List (String × Option (Int × Int × Int))
  | [] => []
  | h :: t =>
    headerRow seqType h ::
      distinctFirst seqType (t.filter (fun h2 => h2.id ≠ h.id))
termination_by l => l.length
decreasing_by
  simp only [List.length_cons]
  exact Nat.lt_succ_of_le (List.length_filter_le _ _)

/-- `np.where(cascade == 0.0)[0]`: the indices of the zero-valued
slots of a feature vector, in increasing order. -/
def zerosIdx (cascade : List ℚ) : List Nat :=
  ((cascade.enum).filter (fun p => p.2 = 0)).map Prod.fst

/-- Stable insertion into a list sorted by strictly descending-or-equal
predicted value: the new pair goes after every strictly greater value
and before any equal one (matching the stability of Python's
`sorted(..., key=lambda x : -x[-1])`). -/
def insertDesc (p : Nat × ℚ) : List (Nat × ℚ) → List (Nat × ℚ)
  | [] => [p]
  | q :: t => if p.2 < q.2 then q :: insertDesc p t else p :: q :: t

/-- Stable sort of (slot, predicted value) pairs by predicted value
descending, as performed on `predictions` in `predict_missings`. -/
def sortDesc : List (Nat × ℚ) → List (Nat × ℚ)
  | [] => []
  | p :: t => insertDesc p (sortDesc t)

/-- The fill loop of `predict_missings`: write each (slot, predicted
value) pair into the vector in order. -/
def fillSlots (v : List ℚ) (l : List (Nat × ℚ)) : List ℚ :=
  l.foldl (fun w p => w.set p.1 p.2) v

/-- `predict_missings` on a single cascade feature vector with recorded
missing count `nMiss`, with the per-slot regression predictions
abstracted as the oracle `predFn` (the trained model applied to the
vector with that slot removed).  A zero missing count passes the vector
through; otherwise predictions are collected for every zero slot,
sorted by predicted value descending, and the first `nMiss` are written
into the vector; `none` models the index error raised when the missing
count exceeds the number of zero slots. -/
def predict_missings_one (predFn : Nat → ℚ) (nMiss : Nat)
    (cascade : List ℚ) : Option (List ℚ) :=
  if nMiss = 0 then some cascade
  else
    let preds := (zerosIdx cascade).map (fun j => (j, predFn j))
    let sorted := sortDesc preds
    if nMiss ≤ sorted.length then some (fillSlots cascade (sorted.take nMiss))
    else none

/-- Number of positions at which two equal-length vectors differ. -/
def countDiffs (a b : List ℚ) : Nat :=
  ((a.zip b).filter (fun p => p.1 ≠ p.2)).length

/-- One row of the final prediction table: profile-set (HMM) id,
1-based cascade id, classifier name, and the regressor name when one
was used (the `regressor` column exists only then). -/
structure OutRow where
  hmm : Nat
  cascadeId : Nat
  classifier : String
  regressor : Option String
deriving DecidableEq, Repr

/-- Stable ascending insertion by HMM key, modelling
`sorted(hmm_cascades)` over the profile-set ids of the cascade
dictionary (each paired with its number of cascades). -/
def insertAsc (p : Nat × Nat) : List (Nat × Nat) → List (Nat × Nat)
  | [] => [p]
  | q :: t => if q.1 < p.1 then q :: insertAsc p t else p :: q :: t

/-- Stable sort by HMM key ascending. -/
def sortAsc : List (Nat × Nat) → List (Nat × Nat)
  | [] => []
  | p :: t => insertAsc p (sortAsc t)

/-- The rows appended to `output_defaultdict` by one call of
`classify`: profile sets in sorted order, then cascades in id order,
then classifiers in configured order; the regressor column is filled
only when `regName` is nonempty. -/
def classify_rows (regName : String) (hmmCascades : List (Nat × Nat))
    (classifiers : List String) : List OutRow :=
  (sortAsc hmmCascades).flatMap (fun hc =>
    (List.range hc.2).flatMap (fun ci =>
      classifiers.map (fun clf =>
        ⟨hc.1, ci + 1, clf, if regName = "" then none else some regName⟩)))

/-- The prediction rows accumulated by the `__main__` dispatch:
`classification` mode calls `classify` once without a regressor;
`mixed` mode calls it once per configured regressor, in configured
order; `regression` mode never calls `classify`. -/
def main_rows (runMode : String) (regressors classifiers : List String)
    (hmmCascades : List (Nat × Nat)) : List OutRow :=
  if runMode = "classification" then
    classify_rows "" hmmCascades classifiers
  else
    regressors.flatMap (fun reg =>
      if runMode = "mixed" then classify_rows reg hmmCascades classifiers
      else [])

/-- Position of a row's regressor in the configured regressor list
(rows without a regressor sort at position 0). -/
def regPos (regressors : List String) : Option String → Nat
  | none => 0
  | some r => regressors.indexOf r

/-- Strict lexicographic order on quadruples of naturals. -/
def lt4 (a b : Nat × Nat × Nat × Nat) : Bool :=
  a.1 < b.1 ∨ (a.1 = b.1 ∧ (a.2.1 < b.2.1 ∨ (a.2.1 = b.2.1 ∧
    (a.2.2.1 < b.2.2.1 ∨ (a.2.2.1 = b.2.2.1 ∧ a.2.2.2 < b.2.2.2)))))

/-- Non-strict lexicographic order on quadruples of naturals. -/
def le4 (a b : Nat × Nat × Nat × Nat) : Bool :=
  lt4 a b ∨ a = b

/-- The sort key asserted by the specification for the final table:
profile-set id, then cascade id, then classifier position in the
configured order, then regressor position in the configured order. -/
def claimKey (classifiers regressors : List String) (r : OutRow) :
    Nat × Nat × Nat × Nat :=
  (r.hmm, r.cascadeId, classifiers.indexOf r.classifier,
   regPos regressors r.regressor)

/-- The sort key the code actually realizes: regressor position
outermost, then profile-set id, then cascade id, then classifier
position in the configured order. -/
def codeKey (classifiers regressors : List String) (r : OutRow) :
    Nat × Nat × Nat × Nat :=
  (regPos regressors r.regressor, r.hmm, r.cascadeId,
   classifiers.indexOf r.classifier)

/-- Whether a hit-table line can be processed against the given gene
index without a lookup error. -/
def lineKnown (seqType : String) (keys : List String) : HLine → Bool
  | .comment => true
  | .row t _ lf => decide (lineId seqType t lf ∈ keys)

/-- Claim C1: on the fabricated genomic table of six records with
annotations `[A, unknown, A, unknown, unknown, A]`, `max_gap = 1`,
`min_proteins = 2`, `max_nt_diff = 500` and all neighbour distances 0,
`build_cascades` emits exactly one cascade, consisting exactly of the
records at positions 0, 1 and 2; the trailing unannotated record is
trimmed away and record 5 appears in no cascade. -/
theorem claim_C1 :
    (build_cascades "dna" 1 2 500 exampleRecords).map (fun c => c.map Prod.fst)
      = [[0, 1, 2]] := by decide

theorem geneStep_init_le (s r : ℚ × String) : s.1 ≤ (geneStep s r).1 := by
  by_cases h : r.1 > s.1 <;> simp [geneStep, h]
  exact le_of_lt h

theorem geneStep_row_le (s r : ℚ × String) : r.1 ≤ (geneStep s r).1 := by
  by_cases h : r.1 > s.1 <;> simp [geneStep, h]
  exact not_lt.mp h

theorem foldl_geneStep_init_le (rows : List (ℚ × String)) :
    ∀ s, s.1 ≤ (rows.foldl geneStep s).1 := by
  induction rows with
  | nil => intro s; simp
  | cons r t ih =>
    intro s
    calc s.1 ≤ (geneStep s r).1 := geneStep_init_le s r
      _ ≤ ((r :: t).foldl geneStep s).1 := by
        simpa [List.foldl_cons] using ih (geneStep s r)

theorem foldl_geneStep_mem_le (rows : List (ℚ × String)) :
    ∀ s r, r ∈ rows → r.1 ≤ (rows.foldl geneStep s).1 := by
  induction rows with
  | nil => intro s r hr; simp at hr
  | cons a t ih =>
    intro s r hr
    rcases List.mem_cons.mp hr with h | h
    · subst h
      calc r.1 ≤ (geneStep s r).1 := geneStep_row_le s r
        _ ≤ ((r :: t).foldl geneStep s).1 := by
          simpa [List.foldl_cons] using foldl_geneStep_init_le t (geneStep s r)
    · simpa [List.foldl_cons] using ih (geneStep s a) r h

theorem foldl_geneStep_cases (rows : List (ℚ × String)) :
    ∀ s, rows.foldl geneStep s = s ∨
      ∃ l1 l2, rows = l1 ++ (rows.foldl geneStep s) :: l2 ∧
        s.1 < (rows.foldl geneStep s).1 ∧
        ∀ r ∈ l1, r.1 < (rows.foldl geneStep s).1 := by
  induction rows with
  | nil => intro s; left; rfl
  | cons a t ih =>
    intro s
    by_cases h : a.1 > s.1
    · have hstep : geneStep s a = a := by simp [geneStep, h]
      have hfold : (a :: t).foldl geneStep s = t.foldl geneStep a := by
        simp [List.foldl_cons, hstep]
      rcases ih a with h1 | ⟨l1, l2, heq, hlt, hall⟩
      · right
        refine ⟨[], t, ?_, ?_, ?_⟩
        · simp [hfold, h1]
        · rw [hfold, h1]; exact h
        · simp
      · right
        refine ⟨a :: l1, l2, ?_, ?_, ?_⟩
        · rw [hfold, List.cons_append, ← heq]
        · rw [hfold]
          exact lt_trans h hlt
        · intro r hr
          rcases List.mem_cons.mp hr with h2 | h2
          · subst h2; rw [hfold]; exact hlt
          · rw [hfold]; exact hall r h2
    · have hstep : geneStep s a = s := by simp [geneStep, h]
      have hfold : (a :: t).foldl geneStep s = t.foldl geneStep s := by
        simp [List.foldl_cons, hstep]
      rcases ih s with h1 | ⟨l1, l2, heq, hlt, hall⟩
      · left; rw [hfold, h1]
      · right
        refine ⟨a :: l1, l2, ?_, ?_, ?_⟩
        · rw [hfold, List.cons_append, ← heq]
        · rw [hfold]; exact hlt
        · intro r hr
          rcases List.mem_cons.mp hr with h2 | h2
          · subst h2
            rw [hfold]
            exact lt_of_le_of_lt (not_lt.mp h) hlt
          · rw [hfold]; exact hall r h2

/-- Claim C3 counterexample: a single hit-table row whose bitscore
(−2) does not exceed the initial sentinel −1 is never stored, so the
final pair is the default, not the maximum-bitscore row. -/
theorem claim_C3_counterexample :
    geneFold [((-2 : ℚ), "casA")] = (-1, "unknown") ∧
    geneFold [((-2 : ℚ), "casA")] ≠ ((-2 : ℚ), "casA") := by decide

/-- Claim C3 (amended): the stored bitscore bounds every processed
row's bitscore; when some row's bitscore exceeds the initial sentinel
−1, the stored pair is the earliest row attaining the maximum (all
strictly earlier rows score strictly lower, so ties keep the
earliest-processed row); when no row beats −1, the default pair
`(-1, "unknown")` is retained. -/
theorem claim_C3_amended (rows : List (ℚ × String)) :
    (∀ r ∈ rows, r.1 ≤ (geneFold rows).1) ∧
    ((∃ r ∈ rows, (-1 : ℚ) < r.1) →
      ∃ l1 l2, rows = l1 ++ geneFold rows :: l2 ∧
        ∀ r ∈ l1, r.1 < (geneFold rows).1) ∧
    ((∀ r ∈ rows, r.1 ≤ -1) → geneFold rows = (-1, "unknown")) := by
  refine ⟨fun r hr => foldl_geneStep_mem_le rows _ r hr, ?_, ?_⟩
  · rintro ⟨r, hr, hgt⟩
    rcases foldl_geneStep_cases rows ((-1 : ℚ), "unknown") with h1 | ⟨l1, l2, heq, _, hall⟩
    · exfalso
      have hle := foldl_geneStep_mem_le rows ((-1 : ℚ), "unknown") r hr
      rw [h1] at hle
      exact absurd (lt_of_lt_of_le hgt hle) (lt_irrefl _)
    · exact ⟨l1, l2, heq, hall⟩
  · intro hall
    rcases foldl_geneStep_cases rows ((-1 : ℚ), "unknown") with h1 | ⟨l1, l2, heq, hlt, _⟩
    · exact h1
    · exfalso
      have hmem := List.mem_append_right l1
        (List.mem_cons_self (rows.foldl geneStep ((-1 : ℚ), "unknown")) l2)
      rw [← heq] at hmem
      exact absurd (lt_of_lt_of_le hlt (hall _ hmem)) (lt_irrefl _)

theorem filter_dropWhile_of_excl {α : Type} (p q : α → Bool)
    (hpq : ∀ a, q a = true → p a = false) :
    ∀ l : List α, (l.dropWhile q).filter p = l.filter p := by
  intro l
  induction l with
  | nil => rfl
  | cons a l ih =>
    cases hq : q a with
    | true =>
      rw [List.dropWhile_cons_of_pos hq, ih, List.filter_cons_of_neg]
      simp [hpq a hq]
    | false => rw [List.dropWhile_cons_of_neg (by simp [hq])]

theorem countAnnotated_trim (l : List (Nat × GRec)) :
    countAnnotated (trimTrailingUnknown l) = countAnnotated l := by
  unfold countAnnotated trimTrailingUnknown
  rw [List.filter_reverse, List.length_reverse,
    filter_dropWhile_of_excl _ _ (fun a ha => by
      simp only [decide_eq_true_eq] at ha
      simp [ha]),
    List.filter_reverse, List.length_reverse]

theorem countAnnotated_append (l1 l2 : List (Nat × GRec)) :
    countAnnotated (l1 ++ l2) = countAnnotated l1 + countAnnotated l2 := by
  simp [countAnnotated, List.filter_append]

theorem cascadeStep_inv (mg mp : Nat) (mnd : Int) (s : CState) (i : Nat)
    (nd : Int) (r : GRec)
    (h1 : s.casCount = countAnnotated s.indicesCascade)
    (h2 : ∀ c ∈ s.cascades, mp ≤ countAnnotated c) :
    (cascadeStep mg mp mnd s i nd r).casCount =
      countAnnotated (cascadeStep mg mp mnd s i nd r).indicesCascade ∧
    ∀ c ∈ (cascadeStep mg mp mnd s i nd r).cascades,
      mp ≤ countAnnotated c := by
  unfold cascadeStep
  split_ifs with hA hB hC
  · have hann : r.ann ≠ "unknown" := by
      rcases hA.1 with h | h <;> exact h.1
    refine ⟨?_, h2⟩
    simp [countAnnotated_append, countAnnotated, hann, h1]
  · have hann : r.ann = "unknown" := hB.2.2.1
    refine ⟨?_, h2⟩
    simp [countAnnotated_append, countAnnotated, hann, h1]
  · refine ⟨by simp [countAnnotated], ?_⟩
    intro c hc
    simp only [List.mem_append, List.mem_singleton] at hc
    rcases hc with hc | hc
    · exact h2 c hc
    · rw [hc, countAnnotated_trim, ← h1]
      exact hC.2
  · exact ⟨by simp [countAnnotated], h2⟩

theorem cascadeRun_inv (mg mp : Nat) (mnd : Int) (records : List GRec) :
    ∀ (i : Nat) (prev : Option GRec) (s : CState),
      s.casCount = countAnnotated s.indicesCascade →
      (∀ c ∈ s.cascades, mp ≤ countAnnotated c) →
      ∀ c ∈ (cascadeRun mg mp mnd i prev s records).cascades,
        mp ≤ countAnnotated c := by
  induction records with
  | nil =>
    intro i prev s h1 h2
    simpa [cascadeRun] using h2
  | cons r rest ih =>
    intro i prev s h1 h2
    rw [cascadeRun.eq_def]
    obtain ⟨h1', h2'⟩ := cascadeStep_inv mg mp mnd s i
      (match prev with | none => 0 | some p => r.start - p.stop) r h1 h2
    exact ih (i + 1) (some r) _ h1' h2'

theorem dropWhile_head?_not {α : Type} (q : α → Bool) :
    ∀ (l : List α) (a : α), (l.dropWhile q).head? = some a → q a = false := by
  intro l
  induction l with
  | nil => intro a h; simp at h
  | cons x t ih =>
    intro a h
    cases hq : q x with
    | true => rw [List.dropWhile_cons_of_pos hq] at h; exact ih a h
    | false =>
      rw [List.dropWhile_cons_of_neg (by simp [hq])] at h
      simp only [List.head?_cons, Option.some.injEq] at h
      rw [← h]; exact hq

theorem dropWhile_concat_getLast {α : Type} (q : α → Bool) (a : α)
    (ha : q a = false) :
    ∀ l : List α, ((l ++ [a]).dropWhile q).getLast? = some a := by
  intro l
  induction l with
  | nil =>
    rw [List.nil_append, List.dropWhile_cons_of_neg (by simp [ha])]
    simp
  | cons x t ih =>
    cases hq : q x with
    | true => rw [List.cons_append, List.dropWhile_cons_of_pos hq]; exact ih
    | false =>
      rw [List.cons_append, List.dropWhile_cons_of_neg (by simp [hq]),
        ← List.cons_append]
      exact List.getLast?_concat _

theorem trim_head_last (l : List (Nat × GRec)) (p : Nat × GRec)
    (hl : l.head? = some p) (hp : p.2.ann ≠ "unknown") :
    (trimTrailingUnknown l).head? = some p ∧
    ∃ b, (trimTrailingUnknown l).getLast? = some b ∧
      b.2.ann ≠ "unknown" := by
  obtain ⟨t, rfl⟩ : ∃ t, l = p :: t := by
    cases l with
    | nil => simp at hl
    | cons x t =>
      simp only [List.head?_cons, Option.some.injEq] at hl
      exact ⟨t, by rw [hl]⟩
  unfold trimTrailingUnknown
  have hq : (fun x : Nat × GRec => decide (x.2.ann = "unknown")) p = false := by
    simp [hp]
  have hrev : (p :: t).reverse = t.reverse ++ [p] := by simp
  rw [hrev]
  have hlast := dropWhile_concat_getLast
    (fun x : Nat × GRec => decide (x.2.ann = "unknown")) p hq t.reverse
  constructor
  · rw [List.head?_reverse]
    exact hlast
  · have hne : (t.reverse ++ [p]).dropWhile
        (fun x : Nat × GRec => decide (x.2.ann = "unknown")) ≠ [] := by
      intro hnil
      rw [hnil] at hlast
      simp at hlast
    obtain ⟨b, rest, hcons⟩ := List.exists_cons_of_ne_nil hne
    have hb : ((t.reverse ++ [p]).dropWhile
        (fun x : Nat × GRec => decide (x.2.ann = "unknown"))).head? = some b := by
      rw [hcons]; rfl
    refine ⟨b, ?_, ?_⟩
    · rw [List.getLast?_reverse]
      exact hb
    · have := dropWhile_head?_not _ _ b hb
      simpa using this

theorem cascadeStep_inv9 (mg mp : Nat) (mnd : Int) (s : CState) (i : Nat)
    (nd : Int) (r : GRec)
    (h1 : ∀ p, s.indicesCascade.head? = some p → p.2.ann ≠ "unknown")
    (h2 : ∀ c ∈ s.cascades, ∃ a b, c.head? = some a ∧ c.getLast? = some b ∧
      a.2.ann ≠ "unknown" ∧ b.2.ann ≠ "unknown") :
    (∀ p, (cascadeStep mg mp mnd s i nd r).indicesCascade.head? = some p →
      p.2.ann ≠ "unknown") ∧
    (∀ c ∈ (cascadeStep mg mp mnd s i nd r).cascades,
      ∃ a b, c.head? = some a ∧ c.getLast? = some b ∧
        a.2.ann ≠ "unknown" ∧ b.2.ann ≠ "unknown") := by
  unfold cascadeStep
  split_ifs with hA hB hC
  · refine ⟨?_, h2⟩
    have hann : r.ann ≠ "unknown" := by
      rcases hA.1 with h | h <;> exact h.1
    intro p hp
    cases hind : s.indicesCascade with
    | nil =>
      rw [hind] at hp
      simp only [List.nil_append, List.head?_cons, Option.some.injEq] at hp
      rw [← hp]
      exact hann
    | cons x t =>
      rw [hind] at hp
      simp only [List.cons_append, List.head?_cons, Option.some.injEq] at hp
      apply h1
      rw [hind, ← hp]
      simp
  · refine ⟨?_, h2⟩
    intro p hp
    cases hind : s.indicesCascade with
    | nil => exact absurd hind hB.2.1
    | cons x t =>
      rw [hind] at hp
      simp only [List.cons_append, List.head?_cons, Option.some.injEq] at hp
      apply h1
      rw [hind, ← hp]
      simp
  · refine ⟨by simp, ?_⟩
    intro c hc
    simp only [List.mem_append, List.mem_singleton] at hc
    rcases hc with hc | hc
    · exact h2 c hc
    · subst hc
      cases hind : s.indicesCascade with
      | nil => exact absurd hind hC.1
      | cons x t =>
        have hx : x.2.ann ≠ "unknown" := h1 x (by rw [hind]; simp)
        obtain ⟨hhd, b, hlast, hb⟩ :=
          trim_head_last (x :: t) x (by simp) hx
        exact ⟨x, b, hhd, hlast, hx, hb⟩
  · exact ⟨by simp, h2⟩

theorem cascadeRun_inv9 (mg mp : Nat) (mnd : Int) (records : List GRec) :
    ∀ (i : Nat) (prev : Option GRec) (s : CState),
      (∀ p, s.indicesCascade.head? = some p → p.2.ann ≠ "unknown") →
      (∀ c ∈ s.cascades, ∃ a b, c.head? = some a ∧ c.getLast? = some b ∧
        a.2.ann ≠ "unknown" ∧ b.2.ann ≠ "unknown") →
      ∀ c ∈ (cascadeRun mg mp mnd i prev s records).cascades,
        ∃ a b, c.head? = some a ∧ c.getLast? = some b ∧
          a.2.ann ≠ "unknown" ∧ b.2.ann ≠ "unknown" := by
  induction records with
  | nil =>
    intro i prev s h1 h2
    simpa [cascadeRun] using h2
  | cons r rest ih =>
    intro i prev s h1 h2
    rw [cascadeRun.eq_def]
    obtain ⟨h1', h2'⟩ := cascadeStep_inv9 mg mp mnd s i
      (match prev with | none => 0 | some p => r.start - p.stop) r h1 h2
    exact ih (i + 1) (some r) _ h1' h2'

/-- Claim C9: for genomic input and any parameter values, every
emitted cascade is non-empty, starts with a record carrying a
non-"unknown" annotation (only an annotated record can open a
cascade), and — after the trailing trim — also ends with an annotated
record. -/
theorem claim_C9 (mg mp : Nat) (mnd : Int) (records : List GRec) :
    ∀ c ∈ build_cascades "dna" mg mp mnd records,
      c ≠ [] ∧ ∃ a b, c.head? = some a ∧ c.getLast? = some b ∧
        a.2.ann ≠ "unknown" ∧ b.2.ann ≠ "unknown" := by
  intro c hc
  rw [build_cascades, if_neg (by decide)] at hc
  obtain ⟨a, b, hhd, hlast, ha, hb⟩ :=
    cascadeRun_inv9 mg mp mnd records 0 none initCState
      (by intro p hp; simp [initCState] at hp)
      (by intro c hc; simp [initCState] at hc) c hc
  refine ⟨?_, a, b, hhd, hlast, ha, hb⟩
  intro hnil
  rw [hnil] at hhd
  simp at hhd

theorem claim_C9_witness :
    ([((0 : Nat), (⟨0, 0, "A"⟩ : GRec)), (1, ⟨0, 0, "unknown"⟩), (2, ⟨0, 0, "A"⟩)] ∈
      build_cascades "dna" 1 2 500 exampleRecords) ∧
    ([((0 : Nat), (⟨0, 0, "A"⟩ : GRec)), (1, ⟨0, 0, "unknown"⟩), (2, ⟨0, 0, "A"⟩)] ≠ [] ∧
      ∃ a b,
        ([((0 : Nat), (⟨0, 0, "A"⟩ : GRec)), (1, ⟨0, 0, "unknown"⟩), (2, ⟨0, 0, "A"⟩)].head?
          = some a) ∧
        ([((0 : Nat), (⟨0, 0, "A"⟩ : GRec)), (1, ⟨0, 0, "unknown"⟩), (2, ⟨0, 0, "A"⟩)].getLast?
          = some b) ∧
        a.2.ann ≠ "unknown" ∧ b.2.ann ≠ "unknown") :=
  ⟨by decide, claim_C9 1 2 500 exampleRecords _ (by decide)⟩

theorem insertDesc_perm (p : Nat × ℚ) :
    ∀ l : List (Nat × ℚ), (insertDesc p l).Perm (p :: l) := by
  intro l
  induction l with
  | nil => exact List.Perm.refl _
  | cons q t ih =>
    simp only [insertDesc]
    by_cases h : p.2 < q.2
    · rw [if_pos h]
      exact (List.Perm.cons q ih).trans (List.Perm.swap p q t)
    · rw [if_neg h]

theorem sortDesc_perm : ∀ l : List (Nat × ℚ), (sortDesc l).Perm l := by
  intro l
  induction l with
  | nil => exact List.Perm.refl _
  | cons p t ih =>
    simp only [sortDesc]
    exact (insertDesc_perm p _).trans (List.Perm.cons p ih)

theorem insertDesc_sorted (p : Nat × ℚ) :
    ∀ l : List (Nat × ℚ), l.Pairwise (fun a b => b.2 ≤ a.2) →
      (insertDesc p l).Pairwise (fun a b => b.2 ≤ a.2) := by
  intro l
  induction l with
  | nil => intro _; simp [insertDesc]
  | cons q t ih =>
    intro hs
    rw [List.pairwise_cons] at hs
    obtain ⟨hq, ht⟩ := hs
    simp only [insertDesc]
    by_cases h : p.2 < q.2
    · rw [if_pos h, List.pairwise_cons]
      refine ⟨?_, ih ht⟩
      intro b hb
      rcases List.mem_cons.mp ((insertDesc_perm p t).mem_iff.mp hb) with hb' | hb'
      · rw [hb']; exact le_of_lt h
      · exact hq b hb'
    · rw [if_neg h, List.pairwise_cons]
      refine ⟨?_, List.pairwise_cons.mpr ⟨hq, ht⟩⟩
      intro b hb
      rcases List.mem_cons.mp hb with hb' | hb'
      · rw [hb']; exact not_lt.mp h
      · exact le_trans (hq b hb') (not_lt.mp h)

theorem sortDesc_sorted : ∀ l : List (Nat × ℚ),
    (sortDesc l).Pairwise (fun a b => b.2 ≤ a.2) := by
  intro l
  induction l with
  | nil => simp [sortDesc]
  | cons p t ih =>
    simp only [sortDesc]
    exact insertDesc_sorted p _ ih

theorem zerosIdx_sublist (c : List ℚ) :
    List.Sublist (zerosIdx c) (c.enum.map Prod.fst) := by
  unfold zerosIdx
  exact List.Sublist.map Prod.fst (List.filter_sublist _)

theorem zerosIdx_nodup (c : List ℚ) : (zerosIdx c).Nodup :=
  List.Nodup.sublist (zerosIdx_sublist c) (List.nodup_enum_map_fst c)

theorem zerosIdx_lt (c : List ℚ) : ∀ j ∈ zerosIdx c, j < c.length := by
  intro j hj
  have hmem := (zerosIdx_sublist c).subset hj
  rw [List.enum_eq_enumFrom, List.enumFrom_map_fst] at hmem
  simpa using (List.mem_range'_1.mp hmem).2

theorem fillSlots_cons (v : List ℚ) (p : Nat × ℚ) (t : List (Nat × ℚ)) :
    fillSlots v (p :: t) = fillSlots (v.set p.1 p.2) t := rfl

theorem fillSlots_length : ∀ (l : List (Nat × ℚ)) (v : List ℚ),
    (fillSlots v l).length = v.length := by
  intro l
  induction l with
  | nil => intro v; rfl
  | cons p t ih => intro v; rw [fillSlots_cons, ih, List.length_set]

theorem fillSlots_not_mem : ∀ (l : List (Nat × ℚ)) (v : List ℚ) (i : Nat),
    i ∉ l.map Prod.fst → (fillSlots v l)[i]? = v[i]? := by
  intro l
  induction l with
  | nil => intro v i _; rfl
  | cons p t ih =>
    intro v i hi
    have h1 : i ≠ p.1 := fun h => hi (by
      rw [List.map_cons]; exact List.mem_cons.mpr (Or.inl h))
    have h2 : i ∉ t.map Prod.fst := fun h => hi (by
      rw [List.map_cons]; exact List.mem_cons.mpr (Or.inr h))
    rw [fillSlots_cons, ih _ i h2, List.getElem?_set_ne (Ne.symm h1)]

theorem fillSlots_mem : ∀ (l : List (Nat × ℚ)) (v : List ℚ) (j : Nat) (x : ℚ),
    (j, x) ∈ l → (l.map Prod.fst).Nodup → j < v.length →
    (fillSlots v l)[j]? = some x := by
  intro l
  induction l with
  | nil => intro v j x h _ _; simp at h
  | cons p t ih =>
    intro v j x hmem hnodup hlt
    rw [List.map_cons, List.nodup_cons] at hnodup
    rcases List.mem_cons.mp hmem with he | he
    · have hp := he.symm
      subst hp
      rw [fillSlots_cons, fillSlots_not_mem t _ j hnodup.1,
        List.getElem?_set_self hlt]
    · have hne : p.1 ≠ j := by
        intro h
        apply hnodup.1
        rw [h]
        exact List.mem_map_of_mem Prod.fst he
      rw [fillSlots_cons]
      exact ih _ j x he hnodup.2 (by rw [List.length_set]; exact hlt)

/-- The (slot, predicted value) candidate pairs collected by
`predict_missings` over the zero slots of a vector. -/
def predPairs (predFn : Nat → ℚ) (cascade : List ℚ) : List (Nat × ℚ) :=
  (zerosIdx cascade).map (fun j => (j, predFn j))

/-- The `nMiss` highest-predicted candidate pairs actually written by
`predict_missings`. -/
def chosenSlots (predFn : Nat → ℚ) (nMiss : Nat) (cascade : List ℚ) :
    List (Nat × ℚ) :=
  (sortDesc (predPairs predFn cascade)).take nMiss

/-- Claim C6 counterexample: with one zero slot, missing count 1 and a
predicted value of 0, the filled vector equals the input, so the number
of slots that differ from the input is 0, not the missing count 1. -/
theorem claim_C6_counterexample :
    predict_missings_one (fun _ => 0) 1 [0] = some [0] ∧
    countDiffs [0] [0] = 0 ∧ (0 : Nat) ≠ 1 := by decide

/-- Claim C6 (amended): for missing count `nMiss` with
`0 < nMiss ≤` number of zero slots, `predict_missings` writes exactly
the `nMiss` candidate slots with the greatest predicted values (each
written once, values sorted descending, every kept candidate's
prediction at least every dropped candidate's), leaves every other
slot exactly unchanged, and stores each chosen slot's predicted value;
a written slot's value may coincide with the original 0.0, so fewer
than `nMiss` slots may *differ* from the input; when `nMiss` exceeds
the number of zero slots the code fails with an index error instead. -/
theorem claim_C6_amended (predFn : Nat → ℚ) (nMiss : Nat) (cascade : List ℚ)
    (h0 : nMiss ≠ 0) (hk : nMiss ≤ (zerosIdx cascade).length) :
    predict_missings_one predFn nMiss cascade =
      some (fillSlots cascade (chosenSlots predFn nMiss cascade)) ∧
    (fillSlots cascade (chosenSlots predFn nMiss cascade)).length =
      cascade.length ∧
    ((chosenSlots predFn nMiss cascade).map Prod.fst).Nodup ∧
    (chosenSlots predFn nMiss cascade).length = nMiss ∧
    (∀ p ∈ chosenSlots predFn nMiss cascade,
      p.1 ∈ zerosIdx cascade ∧ p.2 = predFn p.1 ∧
      (fillSlots cascade (chosenSlots predFn nMiss cascade))[p.1]? = some p.2) ∧
    (∀ i, i ∉ (chosenSlots predFn nMiss cascade).map Prod.fst →
      (fillSlots cascade (chosenSlots predFn nMiss cascade))[i]? = cascade[i]?) ∧
    (chosenSlots predFn nMiss cascade).Pairwise (fun a b => b.2 ≤ a.2) ∧
    (∀ p ∈ chosenSlots predFn nMiss cascade,
      ∀ q ∈ (sortDesc (predPairs predFn cascade)).drop nMiss, q.2 ≤ p.2) := by
  have hlen_sort : (sortDesc (predPairs predFn cascade)).length =
      (zerosIdx cascade).length := by
    rw [(sortDesc_perm (predPairs predFn cascade)).length_eq, predPairs,
      List.length_map]
  have hk' : nMiss ≤ (sortDesc (predPairs predFn cascade)).length := by
    rw [hlen_sort]; exact hk
  have hfst : (predPairs predFn cascade).map Prod.fst = zerosIdx cascade := by
    rw [predPairs, List.map_map]
    exact List.map_id _
  have hnodup_sort : ((sortDesc (predPairs predFn cascade)).map Prod.fst).Nodup := by
    have hperm := (sortDesc_perm (predPairs predFn cascade)).map Prod.fst
    refine (List.Perm.nodup_iff hperm).mpr ?_
    rw [hfst]
    exact zerosIdx_nodup cascade
  have hnodup_chosen : ((chosenSlots predFn nMiss cascade).map Prod.fst).Nodup := by
    rw [chosenSlots, List.map_take]
    exact List.Nodup.sublist (List.take_sublist _ _) hnodup_sort
  have hmem_zeros : ∀ p ∈ chosenSlots predFn nMiss cascade,
      p.1 ∈ zerosIdx cascade ∧ p.2 = predFn p.1 := by
    intro p hp
    have hp1 : p ∈ sortDesc (predPairs predFn cascade) :=
      List.take_subset _ _ hp
    have hp2 : p ∈ predPairs predFn cascade :=
      (sortDesc_perm (predPairs predFn cascade)).subset hp1
    rw [predPairs] at hp2
    obtain ⟨j, hj, hpe⟩ := List.mem_map.mp hp2
    rw [← hpe]
    exact ⟨hj, rfl⟩
  refine ⟨?_, fillSlots_length _ _, hnodup_chosen, ?_, ?_, ?_, ?_, ?_⟩
  · rw [predict_missings_one, if_neg h0]
    rw [if_pos (show nMiss ≤
      (sortDesc ((zerosIdx cascade).map (fun j => (j, predFn j)))).length from hk')]
    rfl
  · rw [chosenSlots, List.length_take]
    exact Nat.min_eq_left hk'
  · intro p hp
    obtain ⟨hz, hpv⟩ := hmem_zeros p hp
    refine ⟨hz, hpv, ?_⟩
    have hpe : (p.1, p.2) ∈ chosenSlots predFn nMiss cascade := by
      simpa using hp
    exact fillSlots_mem _ cascade p.1 p.2 hpe hnodup_chosen
      (zerosIdx_lt cascade p.1 hz)
  · intro i hi
    exact fillSlots_not_mem _ cascade i hi
  · exact List.Pairwise.sublist (List.take_sublist _ _)
      (sortDesc_sorted (predPairs predFn cascade))
  · intro p hp q hq
    have hsorted := sortDesc_sorted (predPairs predFn cascade)
    rw [← List.take_append_drop nMiss (sortDesc (predPairs predFn cascade)),
      List.pairwise_append] at hsorted
    exact hsorted.2.2 p hp q hq

theorem claim_C6_witness :
    (1 : Nat) ≠ 0 ∧ 1 ≤ (zerosIdx [(0 : ℚ), 3, 0]).length ∧
    predict_missings_one (fun j => (j : ℚ)) 1 [(0 : ℚ), 3, 0] =
      some (fillSlots [(0 : ℚ), 3, 0]
        (chosenSlots (fun j => (j : ℚ)) 1 [(0 : ℚ), 3, 0])) :=
  ⟨by decide, by decide,
   (claim_C6_amended (fun j => (j : ℚ)) 1 [(0 : ℚ), 3, 0]
     (by decide) (by decide)).1⟩

theorem trim_subset (l : List (Nat × GRec)) :
    ∀ p ∈ trimTrailingUnknown l, p ∈ l := by
  intro p hp
  unfold trimTrailingUnknown at hp
  rw [List.mem_reverse] at hp
  have hsub := (List.dropWhile_sublist
    (fun x : Nat × GRec => decide (x.2.ann = "unknown")) (l := l.reverse)).subset hp
  exact List.mem_reverse.mp hsub

theorem cascadeStep_inv4 (mg mp : Nat) (mnd : Int) (s : CState) (i : Nat)
    (nd : Int) (r : GRec)
    (hb1 : ∀ p ∈ s.indicesCascade, p.1 < i)
    (hb2 : ∀ c ∈ s.cascades, ∀ p ∈ c, p.1 < i)
    (hd : ∀ p ∈ s.indicesCascade, ∀ c ∈ s.cascades, ∀ q ∈ c, p.1 ≠ q.1) :
    (∀ p ∈ (cascadeStep mg mp mnd s i nd r).indicesCascade, p.1 < i + 1) ∧
    (∀ c ∈ (cascadeStep mg mp mnd s i nd r).cascades, ∀ p ∈ c, p.1 < i + 1) ∧
    (∀ p ∈ (cascadeStep mg mp mnd s i nd r).indicesCascade,
      ∀ c ∈ (cascadeStep mg mp mnd s i nd r).cascades, ∀ q ∈ c, p.1 ≠ q.1) := by
  unfold cascadeStep
  split_ifs with hA hB hC
  · refine ⟨?_, ?_, ?_⟩
    · intro p hp
      rcases List.mem_append.mp hp with hp | hp
      · exact Nat.lt_succ_of_lt (hb1 p hp)
      · rw [List.mem_singleton.mp hp]
        exact Nat.lt_succ_self i
    · intro c hc p hp
      exact Nat.lt_succ_of_lt (hb2 c hc p hp)
    · intro p hp c hc q hq
      rcases List.mem_append.mp hp with hp | hp
      · exact hd p hp c hc q hq
      · rw [List.mem_singleton.mp hp]
        intro he
        have hlt := hb2 c hc q hq
        rw [← he] at hlt
        exact absurd hlt (lt_irrefl i)
  · refine ⟨?_, ?_, ?_⟩
    · intro p hp
      rcases List.mem_append.mp hp with hp | hp
      · exact Nat.lt_succ_of_lt (hb1 p hp)
      · rw [List.mem_singleton.mp hp]
        exact Nat.lt_succ_self i
    · intro c hc p hp
      exact Nat.lt_succ_of_lt (hb2 c hc p hp)
    · intro p hp c hc q hq
      rcases List.mem_append.mp hp with hp | hp
      · exact hd p hp c hc q hq
      · rw [List.mem_singleton.mp hp]
        intro he
        have hlt := hb2 c hc q hq
        rw [← he] at hlt
        exact absurd hlt (lt_irrefl i)
  · refine ⟨by simp, ?_, by simp⟩
    intro c hc p hp
    rcases List.mem_append.mp hc with hc | hc
    · exact Nat.lt_succ_of_lt (hb2 c hc p hp)
    · rw [List.mem_singleton.mp hc] at hp
      exact Nat.lt_succ_of_lt (hb1 p (trim_subset _ p hp))
  · refine ⟨by simp, ?_, by simp⟩
    intro c hc p hp
    exact Nat.lt_succ_of_lt (hb2 c hc p hp)

theorem cascadeRun_inv4 (mg mp : Nat) (mnd : Int) (records : List GRec) :
    ∀ (i : Nat) (prev : Option GRec) (s : CState),
      (∀ p ∈ s.indicesCascade, p.1 < i) →
      (∀ c ∈ s.cascades, ∀ p ∈ c, p.1 < i) →
      (∀ p ∈ s.indicesCascade, ∀ c ∈ s.cascades, ∀ q ∈ c, p.1 ≠ q.1) →
      ∀ p ∈ (cascadeRun mg mp mnd i prev s records).indicesCascade,
        ∀ c ∈ (cascadeRun mg mp mnd i prev s records).cascades,
          ∀ q ∈ c, p.1 ≠ q.1 := by
  induction records with
  | nil =>
    intro i prev s _ _ hd
    simpa [cascadeRun] using hd
  | cons r rest ih =>
    intro i prev s hb1 hb2 hd
    rw [cascadeRun.eq_def]
    obtain ⟨hb1', hb2', hd'⟩ := cascadeStep_inv4 mg mp mnd s i
      (match prev with | none => 0 | some p => r.start - p.stop) r hb1 hb2 hd
    exact ih (i + 1) (some r) _ hb1' hb2' hd'

/-- Claim C4: for genomic input, a cascade still being accumulated when
the end of the record table is reached is never emitted: any record of
the final in-progress list appears (by table position) in no cascade of
the output of `build_cascades`. -/
theorem claim_C4 (mg mp : Nat) (mnd : Int) (records : List GRec)
    (p : Nat × GRec)
    (hp : p ∈ (cascadeRunState mg mp mnd records).indicesCascade) :
    ∀ c ∈ build_cascades "dna" mg mp mnd records, ∀ q ∈ c, p.1 ≠ q.1 := by
  rw [build_cascades, if_neg (by decide)]
  exact cascadeRun_inv4 mg mp mnd records 0 none initCState
    (by intro x hx; simp [initCState] at hx)
    (by intro c hc; simp [initCState] at hc)
    (by intro x hx; simp [initCState] at hx) p hp

theorem claim_C4_witness :
    (((0 : Nat), (⟨0, 0, "A"⟩ : GRec)) ∈
      (cascadeRunState 2 2 500 [⟨0, 0, "A"⟩, ⟨0, 0, "A"⟩]).indicesCascade) ∧
    (∀ c ∈ build_cascades "dna" 2 2 500 [⟨0, 0, "A"⟩, ⟨0, 0, "A"⟩],
      ∀ q ∈ c, ((0 : Nat), (⟨0, 0, "A"⟩ : GRec)).1 ≠ q.1) :=
  ⟨by decide, claim_C4 2 2 500 [⟨0, 0, "A"⟩, ⟨0, 0, "A"⟩]
    ((0 : Nat), (⟨0, 0, "A"⟩ : GRec)) (by decide)⟩

/-- Claim C2 counterexample: for protein input the whole table becomes
one cascade with no minimum-annotated check, so a single-record table
annotated "unknown" yields a cascade with 0 annotated genes although
`min_proteins = 2`. -/
theorem claim_C2_counterexample :
    [((0 : Nat), (⟨0, 0, "unknown"⟩ : GRec))] ∈
      build_cascades "protein" 2 2 500 [⟨0, 0, "unknown"⟩] ∧
    countAnnotated [((0 : Nat), (⟨0, 0, "unknown"⟩ : GRec))] < 2 := by
  decide

/-- Claim C2 (amended): for dna (genomic) input, every cascade emitted
by `build_cascades` contains at least `min_proteins` genes with a
non-"unknown" annotation, both at detection time and after trailing
unannotated genes are trimmed (trimming removes only unannotated
genes).  For protein input the single all-table cascade is emitted
without any such check. -/
theorem claim_C2_amended (mg mp : Nat) (mnd : Int) (records : List GRec) :
    ∀ c ∈ build_cascades "dna" mg mp mnd records, mp ≤ countAnnotated c := by
  rw [build_cascades, if_neg (by decide)]
  exact cascadeRun_inv mg mp mnd records 0 none initCState rfl
    (by intro c hc; simp [initCState] at hc)

theorem claim_C2_witness :
    [((0 : Nat), (⟨0, 0, "A"⟩ : GRec)), (1, ⟨0, 0, "unknown"⟩), (2, ⟨0, 0, "A"⟩)] ∈
      build_cascades "dna" 1 2 500 exampleRecords ∧
    2 ≤ countAnnotated
      [((0 : Nat), (⟨0, 0, "A"⟩ : GRec)), (1, ⟨0, 0, "unknown"⟩), (2, ⟨0, 0, "A"⟩)] :=
  ⟨by decide, claim_C2_amended 1 2 500 exampleRecords _ (by decide)⟩

theorem distinctFirst_nil (seqType : String) : distinctFirst seqType [] = [] := by
  rw [distinctFirst]

theorem distinctFirst_cons (seqType : String) (h : FHeader) (t : List FHeader) :
    distinctFirst seqType (h :: t) =
      headerRow seqType h ::
        distinctFirst seqType (t.filter (fun h2 => h2.id ≠ h.id)) := by
  rw [distinctFirst]

theorem bidf_eq_distinctFirst (seqType : String) (l : List FHeader) :
    ∀ seen : List String,
      build_initial_dataframe_aux seqType l seen =
        distinctFirst seqType (l.filter (fun x => x.id ∉ seen)) := by
  induction l with
  | nil => intro seen; simp [build_initial_dataframe_aux, distinctFirst_nil]
  | cons h t ih =>
    intro seen
    by_cases hmem : h.id ∈ seen
    · rw [show build_initial_dataframe_aux seqType (h :: t) seen =
          build_initial_dataframe_aux seqType t seen by
        simp [build_initial_dataframe_aux, hmem]]
      rw [ih seen]
      congr 1
      simp [List.filter_cons, hmem]
    · rw [show build_initial_dataframe_aux seqType (h :: t) seen =
          headerRow seqType h ::
            build_initial_dataframe_aux seqType t (seen ++ [h.id]) by
        simp [build_initial_dataframe_aux, hmem]]
      have hfc : (h :: t).filter (fun x => x.id ∉ seen) =
          h :: t.filter (fun x => x.id ∉ seen) := by
        simp [List.filter_cons, hmem]
      have hff : (t.filter (fun x => x.id ∉ seen)).filter
            (fun h2 => h2.id ≠ h.id) =
          t.filter (fun x => x.id ∉ seen ++ [h.id]) := by
        rw [List.filter_filter]
        apply List.filter_congr
        intro x _
        by_cases h1 : x.id ∈ seen <;> by_cases h2 : x.id = h.id <;>
          simp [h1, h2]
      rw [hfc, distinctFirst_cons, ih (seen ++ [h.id]), hff]

theorem bidf_fst_nodup_disjoint (seqType : String) (l : List FHeader) :
    ∀ seen : List String,
      ((build_initial_dataframe_aux seqType l seen).map Prod.fst).Nodup ∧
      ∀ x ∈ (build_initial_dataframe_aux seqType l seen).map Prod.fst,
        x ∉ seen := by
  induction l with
  | nil => intro seen; simp [build_initial_dataframe_aux]
  | cons h t ih =>
    intro seen
    by_cases hmem : h.id ∈ seen
    · simpa [build_initial_dataframe_aux, hmem] using ih seen
    · have ih2 := ih (seen ++ [h.id])
      have hout : build_initial_dataframe_aux seqType (h :: t) seen =
          headerRow seqType h ::
            build_initial_dataframe_aux seqType t (seen ++ [h.id]) := by
        simp [build_initial_dataframe_aux, hmem]
      rw [hout]
      have hfst : (headerRow seqType h).1 = h.id := by simp [headerRow]
      constructor
      · rw [List.map_cons, List.nodup_cons, hfst]
        refine ⟨fun hc => ?_, ih2.1⟩
        exact absurd (by simp) (ih2.2 h.id hc)
      · intro x hx
        rw [List.map_cons, hfst] at hx
        rcases List.mem_cons.mp hx with hx | hx
        · subst hx; exact hmem
        · intro hc
          exact ih2.2 x hx (List.mem_append_left _ hc)

theorem bidf_mem_fst_iff (seqType : String) (l : List FHeader) :
    ∀ (seen : List String) (x : String),
      x ∈ (build_initial_dataframe_aux seqType l seen).map Prod.fst ↔
        x ∈ l.map FHeader.id ∧ x ∉ seen := by
  induction l with
  | nil => intro seen x; simp [build_initial_dataframe_aux]
  | cons h t ih =>
    intro seen x
    by_cases hmem : h.id ∈ seen
    · rw [show build_initial_dataframe_aux seqType (h :: t) seen =
          build_initial_dataframe_aux seqType t seen by
        simp [build_initial_dataframe_aux, hmem]]
      rw [ih seen x]
      simp only [List.map_cons, List.mem_cons]
      constructor
      · rintro ⟨hx, hns⟩; exact ⟨Or.inr hx, hns⟩
      · rintro ⟨hx | hx, hns⟩
        · exact absurd (hx ▸ hmem) hns
        · exact ⟨hx, hns⟩
    · rw [show build_initial_dataframe_aux seqType (h :: t) seen =
          headerRow seqType h ::
            build_initial_dataframe_aux seqType t (seen ++ [h.id]) by
        simp [build_initial_dataframe_aux, hmem]]
      have hfst : (headerRow seqType h).1 = h.id := by simp [headerRow]
      rw [List.map_cons, hfst]
      simp only [List.mem_cons, ih (seen ++ [h.id]) x, List.map_cons,
        List.mem_append, List.mem_singleton, not_or]
      constructor
      · rintro (hx | ⟨hx, hns, hne⟩)
        · exact ⟨Or.inl hx, hx ▸ hmem⟩
        · exact ⟨Or.inr hx, hns⟩
      · rintro ⟨hx | hx, hns⟩
        · exact Or.inl hx
        · by_cases hxh : x = h.id
          · exact Or.inl hxh
          · exact Or.inr ⟨hx, hns, hxh, List.not_mem_nil x⟩

theorem bidf_mem_find (seqType : String) (l : List FHeader) :
    ∀ (seen : List String) (r : String × Option (Int × Int × Int)),
      r ∈ build_initial_dataframe_aux seqType l seen →
        ∃ h, l.find? (fun x => x.id = r.1) = some h ∧
          r = headerRow seqType h := by
  induction l with
  | nil => intro seen r hr; simp [build_initial_dataframe_aux] at hr
  | cons h t ih =>
    intro seen r hr
    by_cases hmem : h.id ∈ seen
    · rw [show build_initial_dataframe_aux seqType (h :: t) seen =
          build_initial_dataframe_aux seqType t seen by
        simp [build_initial_dataframe_aux, hmem]] at hr
      obtain ⟨h', hfind, hrow⟩ := ih seen r hr
      have hdisj := (bidf_fst_nodup_disjoint seqType t seen).2 r.1
        (List.mem_map_of_mem Prod.fst hr)
      have hne : h.id ≠ r.1 := fun he => hdisj (he ▸ hmem)
      refine ⟨h', ?_, hrow⟩
      rw [List.find?_cons_of_neg _ (by simp [hne]), hfind]
    · rw [show build_initial_dataframe_aux seqType (h :: t) seen =
          headerRow seqType h ::
            build_initial_dataframe_aux seqType t (seen ++ [h.id]) by
        simp [build_initial_dataframe_aux, hmem]] at hr
      rcases List.mem_cons.mp hr with hr | hr
      · refine ⟨h, ?_, hr⟩
        have : r.1 = h.id := by rw [hr]; simp [headerRow]
        rw [List.find?_cons_of_pos _ (by simp [this])]
      · obtain ⟨h', hfind, hrow⟩ := ih (seen ++ [h.id]) r hr
        have hdisj := (bidf_fst_nodup_disjoint seqType t (seen ++ [h.id])).2 r.1
          (List.mem_map_of_mem Prod.fst hr)
        have hne : h.id ≠ r.1 := fun he => hdisj (by simp [he.symm])
        refine ⟨h', ?_, hrow⟩
        rw [List.find?_cons_of_neg _ (by simp [hne]), hfind]

/-- Claim C7: `build_initial_dataframe` agrees with the first-occurrence
extraction (one row per distinct identifier, rows in first-appearance
order); row identifiers are pairwise distinct; an identifier appears in
the output iff it appears among the headers; the output length is the
number of distinct identifiers; and each row's data comes from the
first header bearing its identifier, so a duplicate's later coordinates
are discarded (kept only for `dna` input). -/
theorem claim_C7 (seqType : String) (headers : List FHeader) :
    build_initial_dataframe seqType headers = distinctFirst seqType headers ∧
    ((build_initial_dataframe seqType headers).map Prod.fst).Nodup ∧
    (∀ x, x ∈ (build_initial_dataframe seqType headers).map Prod.fst ↔
      x ∈ headers.map FHeader.id) ∧
    (build_initial_dataframe seqType headers).length =
      (headers.map FHeader.id).toFinset.card ∧
    (∀ r ∈ build_initial_dataframe seqType headers,
      ∃ h, headers.find? (fun x => x.id = r.1) = some h ∧
        r = headerRow seqType h) := by
  have heq : build_initial_dataframe seqType headers =
      distinctFirst seqType headers := by
    rw [build_initial_dataframe, bidf_eq_distinctFirst seqType headers []]
    congr 1
    simp
  have hnodup := (bidf_fst_nodup_disjoint seqType headers []).1
  have hmem : ∀ x, x ∈ (build_initial_dataframe seqType headers).map Prod.fst ↔
      x ∈ headers.map FHeader.id := by
    intro x
    rw [build_initial_dataframe, bidf_mem_fst_iff seqType headers [] x]
    simp
  refine ⟨heq, hnodup, hmem, ?_, ?_⟩
  · calc (build_initial_dataframe seqType headers).length
        = ((build_initial_dataframe seqType headers).map Prod.fst).length :=
          (List.length_map _ _).symm
      _ = ((build_initial_dataframe seqType headers).map Prod.fst).toFinset.card :=
          (List.toFinset_card_of_nodup hnodup).symm
      _ = (headers.map FHeader.id).toFinset.card := by
          congr 1
          ext x
          simp only [List.mem_toFinset]
          exact hmem x
  · intro r hr
    exact bidf_mem_find seqType headers [] r hr

theorem claim_C7_witness :
    (("a", some ((1 : Int), (2 : Int), (1 : Int))) ∈
      build_initial_dataframe "dna"
        [⟨"a", 1, 2, 1⟩, ⟨"a", 9, 9, -1⟩, ⟨"b", 3, 4, 1⟩]) ∧
    (∃ h, [(⟨"a", 1, 2, 1⟩ : FHeader), ⟨"a", 9, 9, -1⟩, ⟨"b", 3, 4, 1⟩].find?
        (fun x => x.id = ("a", some ((1 : Int), (2 : Int), (1 : Int))).1) = some h ∧
      ("a", some ((1 : Int), (2 : Int), (1 : Int))) = headerRow "dna" h) :=
  ⟨by decide,
   (claim_C7 "dna" [⟨"a", 1, 2, 1⟩, ⟨"a", 9, 9, -1⟩, ⟨"b", 3, 4, 1⟩]).2.2.2.2
     _ (by decide)⟩

theorem dfLookup_cons (k : String) (w : ℚ × String) (l : GeneDF) (g : String) :
    dfLookup ((k, w) :: l) g = if k = g then some w else dfLookup l g := by
  by_cases h : k = g <;> simp [dfLookup, List.find?_cons, h]

theorem dfSet_cons (k : String) (w : ℚ × String) (l : GeneDF)
    (t : String) (v : ℚ × String) :
    dfSet ((k, w) :: l) t v =
      (if k = t then (k, v) else (k, w)) :: dfSet l t v := by
  by_cases h : k = t <;> simp [dfSet, h]

theorem dfLookup_dfSet (df : GeneDF) (t g : String) (v : ℚ × String) :
    dfLookup (dfSet df t v) g =
      if t = g then (dfLookup df g).map (fun _ => v) else dfLookup df g := by
  induction df with
  | nil => by_cases h : t = g <;> simp [dfSet, dfLookup, h]
  | cons p l ih =>
    obtain ⟨k, w⟩ := p
    rw [dfSet_cons]
    by_cases hkt : k = t
    · subst hkt
      by_cases hkg : k = g
      · subst hkg
        simp [dfLookup_cons]
      · simp [dfLookup_cons, hkg, ih]
    · by_cases hkg : k = g
      · subst hkg
        simp [dfLookup_cons, hkt, Ne.symm hkt, ih]
      · simp [dfLookup_cons, hkt, hkg, ih]

theorem dfKeys_dfSet (df : GeneDF) (t : String) (v : ℚ × String) :
    dfKeys (dfSet df t v) = dfKeys df := by
  induction df with
  | nil => rfl
  | cons p l ih =>
    obtain ⟨k, w⟩ := p
    rw [dfSet_cons]
    by_cases h : k = t <;> simp [dfKeys, h] <;>
      simpa [dfKeys] using ih

theorem dfLookup_isSome_iff (df : GeneDF) (g : String) :
    (dfLookup df g).isSome ↔ g ∈ dfKeys df := by
  induction df with
  | nil => simp [dfLookup, dfKeys]
  | cons p l ih =>
    obtain ⟨k, w⟩ := p
    rw [dfLookup_cons]
    by_cases h : k = g
    · simp [dfKeys, h]
    · simp [dfKeys, h, Ne.symm h, ih]

theorem add_bitscores_line_mono (seqType ann : String) (df df2 : GeneDF)
    (l : HLine) (g : String) (b b2 : ℚ) (a a2 : String)
    (hstep : add_bitscores_line seqType ann df l = .ok df2)
    (h1 : dfLookup df g = some (b, a))
    (h2 : dfLookup df2 g = some (b2, a2)) :
    b ≤ b2 ∧ (a2 ≠ a → b < b2) := by
  cases l with
  | comment =>
    have hdf : df = df2 := by simpa [add_bitscores_line] using hstep
    subst hdf
    rw [h1] at h2
    obtain ⟨hb, ha⟩ : b = b2 ∧ a = a2 := by simpa using h2
    subst hb; subst ha
    exact ⟨le_refl b, fun h => absurd rfl h⟩
  | row target bitscore lastField =>
    simp only [add_bitscores_line] at hstep
    cases hl : dfLookup df (lineId seqType target lastField) with
    | none =>
      rw [hl] at hstep
      exact absurd hstep (by simp)
    | some p =>
      obtain ⟨b0, a0⟩ := p
      rw [hl] at hstep
      change (if bitscore > b0 then
          Except.ok (dfSet df (lineId seqType target lastField) (bitscore, ann))
        else Except.ok df) = Except.ok df2 at hstep
      by_cases hgt : bitscore > b0
      · rw [if_pos hgt] at hstep
        have hdf : dfSet df (lineId seqType target lastField)
            (bitscore, ann) = df2 := by simpa using hstep
        subst hdf
        rw [dfLookup_dfSet] at h2
        by_cases hid : lineId seqType target lastField = g
        · rw [if_pos hid, h1] at h2
          obtain ⟨hb2, ha2⟩ : bitscore = b2 ∧ ann = a2 := by simpa using h2
          rw [hid] at hl
          rw [h1] at hl
          obtain ⟨hb0, ha0⟩ : b = b0 ∧ a = a0 := by simpa using hl
          subst hb0
          subst hb2
          exact ⟨le_of_lt hgt, fun _ => hgt⟩
        · rw [if_neg hid, h1] at h2
          obtain ⟨hb, ha⟩ : b = b2 ∧ a = a2 := by simpa using h2
          subst hb; subst ha
          exact ⟨le_refl b, fun h => absurd rfl h⟩
      · rw [if_neg hgt] at hstep
        have hdf : df = df2 := by simpa using hstep
        subst hdf
        rw [h1] at h2
        obtain ⟨hb, ha⟩ : b = b2 ∧ a = a2 := by simpa using h2
        subst hb; subst ha
        exact ⟨le_refl b, fun h => absurd rfl h⟩

theorem add_bitscores_line_keys (seqType ann : String) (df df2 : GeneDF)
    (l : HLine) (hstep : add_bitscores_line seqType ann df l = .ok df2) :
    dfKeys df2 = dfKeys df := by
  cases l with
  | comment =>
    have hdf : df = df2 := by simpa [add_bitscores_line] using hstep
    rw [hdf]
  | row target bitscore lastField =>
    simp only [add_bitscores_line] at hstep
    cases hl : dfLookup df (lineId seqType target lastField) with
    | none =>
      rw [hl] at hstep
      exact absurd hstep (by simp)
    | some p =>
      obtain ⟨b0, a0⟩ := p
      rw [hl] at hstep
      change (if bitscore > b0 then
          Except.ok (dfSet df (lineId seqType target lastField) (bitscore, ann))
        else Except.ok df) = Except.ok df2 at hstep
      by_cases hgt : bitscore > b0
      · rw [if_pos hgt] at hstep
        have hdf : dfSet df (lineId seqType target lastField)
            (bitscore, ann) = df2 := by simpa using hstep
        rw [← hdf]
        exact dfKeys_dfSet df _ _
      · rw [if_neg hgt] at hstep
        have hdf : df = df2 := by simpa using hstep
        rw [hdf]

theorem add_bitscores_line_lookup_some (seqType ann : String)
    (df df2 : GeneDF) (l : HLine) (g : String) (w : ℚ × String)
    (hstep : add_bitscores_line seqType ann df l = .ok df2)
    (h1 : dfLookup df g = some w) :
    ∃ w2, dfLookup df2 g = some w2 := by
  have hmem : g ∈ dfKeys df :=
    (dfLookup_isSome_iff df g).mp (by rw [h1]; rfl)
  have hsome : (dfLookup df2 g).isSome := by
    rw [dfLookup_isSome_iff, add_bitscores_line_keys seqType ann df df2 l hstep]
    exact hmem
  exact ⟨(dfLookup df2 g).get hsome, (Option.some_get hsome).symm⟩

/-- Claim C10: over any sequence of hit-table lines processed
successfully by `add_bitscores`, every gene's stored bitscore is
monotonically non-decreasing, and a gene's stored annotation changes
only when its stored bitscore strictly increases. -/
theorem claim_C10 (seqType ann : String) (df df2 : GeneDF)
    (lines : List HLine) (g : String) (b b2 : ℚ) (a a2 : String)
    (hrun : add_bitscores_lines seqType ann df lines = .ok df2)
    (h1 : dfLookup df g = some (b, a))
    (h2 : dfLookup df2 g = some (b2, a2)) :
    b ≤ b2 ∧ (a2 ≠ a → b < b2) := by
  induction lines generalizing df b a with
  | nil =>
    have hdf : df = df2 := by simpa [add_bitscores_lines] using hrun
    subst hdf
    rw [h1] at h2
    obtain ⟨hb, ha⟩ : b = b2 ∧ a = a2 := by simpa using h2
    subst hb; subst ha
    exact ⟨le_refl b, fun h => absurd rfl h⟩
  | cons l rest ih =>
    simp only [add_bitscores_lines] at hrun
    cases hstep : add_bitscores_line seqType ann df l with
    | error e =>
      rw [hstep] at hrun
      exact absurd hrun (by simp)
    | ok dfm =>
      rw [hstep] at hrun
      change add_bitscores_lines seqType ann dfm rest = Except.ok df2 at hrun
      obtain ⟨wm, hwm⟩ :=
        add_bitscores_line_lookup_some seqType ann df dfm l g (b, a) hstep h1
      obtain ⟨bm, am⟩ := wm
      have hm1 := add_bitscores_line_mono seqType ann df dfm l g b bm a am
        hstep h1 hwm
      have hm2 := ih dfm bm am hrun hwm
      refine ⟨le_trans hm1.1 hm2.1, ?_⟩
      intro hne
      by_cases ham : a2 = am
      · subst ham
        exact lt_of_lt_of_le (hm1.2 hne) hm2.1
      · exact lt_of_le_of_lt hm1.1 (hm2.2 ham)

theorem claim_C10_witness :
    add_bitscores_lines "protein" "casA" [("g1", ((-1 : ℚ), "unknown"))]
        [HLine.row "g1" 5 "x"] = Except.ok [("g1", ((5 : ℚ), "casA"))] ∧
    dfLookup [("g1", ((-1 : ℚ), "unknown"))] "g1" = some ((-1 : ℚ), "unknown") ∧
    dfLookup [("g1", ((5 : ℚ), "casA"))] "g1" = some ((5 : ℚ), "casA") ∧
    ((-1 : ℚ) ≤ 5 ∧ ("casA" ≠ "unknown" → (-1 : ℚ) < 5)) :=
  ⟨by rfl, by rfl, by rfl,
   claim_C10 "protein" "casA" [("g1", ((-1 : ℚ), "unknown"))]
     [("g1", ((5 : ℚ), "casA"))] [HLine.row "g1" 5 "x"] "g1"
     (-1) 5 "unknown" "casA" (by rfl) (by rfl) (by rfl)⟩

theorem add_bitscores_line_known (seqType ann : String) (df : GeneDF)
    (l : HLine) (h : lineKnown seqType (dfKeys df) l = true) :
    ∃ df2, add_bitscores_line seqType ann df l = .ok df2 ∧
      dfKeys df2 = dfKeys df := by
  cases l with
  | comment => exact ⟨df, rfl, rfl⟩
  | row t bs lf =>
    have hmem : lineId seqType t lf ∈ dfKeys df := by
      simpa [lineKnown] using h
    have hsome : (dfLookup df (lineId seqType t lf)).isSome :=
      (dfLookup_isSome_iff df _).mpr hmem
    obtain ⟨w, hw⟩ := Option.isSome_iff_exists.mp hsome
    obtain ⟨b0, a0⟩ := w
    simp only [add_bitscores_line]
    rw [hw]
    change ∃ df2, (if bs > b0 then
        Except.ok (dfSet df (lineId seqType t lf) (bs, ann))
      else Except.ok df) = Except.ok df2 ∧ dfKeys df2 = dfKeys df
    by_cases hgt : bs > b0
    · exact ⟨_, by rw [if_pos hgt], dfKeys_dfSet df _ _⟩
    · exact ⟨df, by rw [if_neg hgt], rfl⟩

theorem add_bitscores_line_unknown (seqType ann : String) (df : GeneDF)
    (t lf : String) (bs : ℚ)
    (h : lineId seqType t lf ∉ dfKeys df) :
    add_bitscores_line seqType ann df (.row t bs lf) =
      .error (lineId seqType t lf) := by
  have hnone : dfLookup df (lineId seqType t lf) = none := by
    cases hl : dfLookup df (lineId seqType t lf) with
    | none => rfl
    | some w =>
      exact absurd ((dfLookup_isSome_iff df _).mp (by rw [hl]; rfl)) h
  simp only [add_bitscores_line]
  rw [hnone]

/-- Claim C8: if a non-comment hit-table line names a gene identifier
absent from the gene table, `add_bitscores` fails with a lookup error
naming that identifier at the first such line: every earlier line
resolves against the (key-preserving) table, and the lines after the
offending one are never processed — the result is the same error for
every possible suffix. -/
theorem claim_C8 (seqType ann : String) (df : GeneDF) (l1 l2 : List HLine)
    (t lf : String) (bs : ℚ)
    (hgood : ∀ l ∈ l1, lineKnown seqType (dfKeys df) l = true)
    (hbad : lineId seqType t lf ∉ dfKeys df) :
    add_bitscores_lines seqType ann df (l1 ++ HLine.row t bs lf :: l2) =
      .error (lineId seqType t lf) := by
  induction l1 generalizing df with
  | nil =>
    simp only [List.nil_append, add_bitscores_lines]
    rw [add_bitscores_line_unknown seqType ann df t lf bs hbad]
  | cons l rest ih =>
    obtain ⟨dfm, hstep, hkeys⟩ := add_bitscores_line_known seqType ann df l
      (hgood l (List.mem_cons_self l rest))
    simp only [List.cons_append, add_bitscores_lines]
    rw [hstep]
    change add_bitscores_lines seqType ann dfm (rest ++ HLine.row t bs lf :: l2) = _
    refine ih dfm (fun x hx => ?_) (by rw [hkeys]; exact hbad)
    rw [hkeys]
    exact hgood x (List.mem_cons_of_mem l hx)

theorem claim_C8_witness :
    ("g2" ∉ dfKeys [("g1", ((-1 : ℚ), "unknown"))]) ∧
    add_bitscores_lines "protein" "casA" [("g1", ((-1 : ℚ), "unknown"))]
        ([] ++ HLine.row "g2" 5 "x" :: [HLine.row "g3" 7 "y"]) =
      .error (lineId "protein" "g2" "x") :=
  ⟨by decide,
   claim_C8 "protein" "casA" [("g1", ((-1 : ℚ), "unknown"))] [] [HLine.row "g3" 7 "y"]
     "g2" "x" 5 (by simp) (by decide)⟩

theorem claim_C3_witness :
    (∃ r ∈ [((5 : ℚ), "casA"), ((5 : ℚ), "casB")], (-1 : ℚ) < r.1) ∧
    (∃ l1 l2, [((5 : ℚ), "casA"), ((5 : ℚ), "casB")] =
        l1 ++ geneFold [((5 : ℚ), "casA"), ((5 : ℚ), "casB")] :: l2 ∧
      ∀ r ∈ l1, r.1 < (geneFold [((5 : ℚ), "casA"), ((5 : ℚ), "casB")]).1) :=
  ⟨⟨((5 : ℚ), "casA"), by decide⟩,
   (claim_C3_amended _).2.1 ⟨((5 : ℚ), "casA"), by decide⟩⟩

theorem nodup_pairwise_indexOf {α : Type} [DecidableEq α] (l : List α)
    (h : l.Nodup) : l.Pairwise (fun a b => l.indexOf a < l.indexOf b) := by
  rw [List.pairwise_iff_getElem]
  intro i j hi hj hij
  rw [List.indexOf_getElem h i hi, List.indexOf_getElem h j hj]
  exact hij

theorem insertAsc_perm (p : Nat × Nat) :
    ∀ l : List (Nat × Nat), (insertAsc p l).Perm (p :: l) := by
  intro l
  induction l with
  | nil => exact List.Perm.refl _
  | cons q t ih =>
    simp only [insertAsc]
    by_cases h : q.1 < p.1
    · rw [if_pos h]
      exact (List.Perm.cons q ih).trans (List.Perm.swap p q t)
    · rw [if_neg h]

theorem sortAsc_perm : ∀ l : List (Nat × Nat), (sortAsc l).Perm l := by
  intro l
  induction l with
  | nil => exact List.Perm.refl _
  | cons p t ih =>
    simp only [sortAsc]
    exact (insertAsc_perm p _).trans (List.Perm.cons p ih)

theorem insertAsc_sorted (p : Nat × Nat) :
    ∀ l : List (Nat × Nat), l.Pairwise (fun a b => a.1 ≤ b.1) →
      (insertAsc p l).Pairwise (fun a b => a.1 ≤ b.1) := by
  intro l
  induction l with
  | nil => intro _; simp [insertAsc]
  | cons q t ih =>
    intro hs
    rw [List.pairwise_cons] at hs
    obtain ⟨hq, ht⟩ := hs
    simp only [insertAsc]
    by_cases h : q.1 < p.1
    · rw [if_pos h, List.pairwise_cons]
      refine ⟨?_, ih ht⟩
      intro b hb
      rcases List.mem_cons.mp ((insertAsc_perm p t).mem_iff.mp hb) with hb' | hb'
      · rw [hb']; exact le_of_lt h
      · exact hq b hb'
    · rw [if_neg h, List.pairwise_cons]
      refine ⟨?_, List.pairwise_cons.mpr ⟨hq, ht⟩⟩
      intro b hb
      rcases List.mem_cons.mp hb with hb' | hb'
      · rw [hb']; exact not_lt.mp h
      · exact le_trans (not_lt.mp h) (hq b hb')

theorem sortAsc_sorted : ∀ l : List (Nat × Nat),
    (sortAsc l).Pairwise (fun a b => a.1 ≤ b.1) := by
  intro l
  induction l with
  | nil => simp [sortAsc]
  | cons p t ih =>
    simp only [sortAsc]
    exact insertAsc_sorted p _ ih

theorem pairwise_le_nodup_lt :
    ∀ l : List (Nat × Nat), l.Pairwise (fun a b => a.1 ≤ b.1) →
      (l.map Prod.fst).Nodup → l.Pairwise (fun a b => a.1 < b.1) := by
  intro l
  induction l with
  | nil => intro _ _; exact List.Pairwise.nil
  | cons p t ih =>
    intro hs hn
    rw [List.pairwise_cons] at hs
    rw [List.map_cons, List.nodup_cons] at hn
    rw [List.pairwise_cons]
    refine ⟨?_, ih hs.2 hn.2⟩
    intro b hb
    refine lt_of_le_of_ne (hs.1 b hb) ?_
    intro he
    exact hn.1 (he ▸ List.mem_map_of_mem Prod.fst hb)

theorem sortAsc_strict (l : List (Nat × Nat))
    (h : (l.map Prod.fst).Nodup) :
    (sortAsc l).Pairwise (fun a b => a.1 < b.1) :=
  pairwise_le_nodup_lt _ (sortAsc_sorted l)
    ((List.Perm.nodup_iff ((sortAsc_perm l).map Prod.fst)).mpr h)

theorem classify_rows_fields (reg : String) (hcs : List (Nat × Nat))
    (clfs : List String) (r : OutRow) (hr : r ∈ classify_rows reg hcs clfs) :
    r.regressor = (if reg = "" then none else some reg) ∧
    r.classifier ∈ clfs := by
  rw [classify_rows] at hr
  simp only [List.mem_flatMap, List.mem_map] at hr
  obtain ⟨hc, _, ci, _, clf, hclf, hre⟩ := hr
  rw [← hre]
  exact ⟨rfl, hclf⟩

theorem classify_rows_pairwise (reg : String) (hcs : List (Nat × Nat))
    (clfs : List String) (hkeys : (hcs.map Prod.fst).Nodup)
    (hclfs : clfs.Nodup) :
    (classify_rows reg hcs clfs).Pairwise (fun a b : OutRow =>
      a.hmm < b.hmm ∨ (a.hmm = b.hmm ∧ (a.cascadeId < b.cascadeId ∨
        (a.cascadeId = b.cascadeId ∧
          clfs.indexOf a.classifier < clfs.indexOf b.classifier)))) := by
  rw [classify_rows, List.pairwise_flatMap]
  constructor
  · intro hc _
    rw [List.pairwise_flatMap]
    constructor
    · intro ci _
      rw [List.pairwise_map]
      refine List.Pairwise.imp ?_ (nodup_pairwise_indexOf clfs hclfs)
      intro a b hab
      exact Or.inr ⟨rfl, Or.inr ⟨rfl, hab⟩⟩
    · refine List.Pairwise.imp ?_ (List.pairwise_lt_range hc.2)
      intro ci1 ci2 hlt x hx y hy
      simp only [List.mem_map] at hx hy
      obtain ⟨clf1, _, hx⟩ := hx
      obtain ⟨clf2, _, hy⟩ := hy
      rw [← hx, ← hy]
      exact Or.inr ⟨rfl, Or.inl (Nat.succ_lt_succ hlt)⟩
  · refine List.Pairwise.imp ?_ (sortAsc_strict hcs hkeys)
    intro hc1 hc2 hlt x hx y hy
    simp only [List.mem_flatMap, List.mem_map] at hx hy
    obtain ⟨ci1, _, clf1, _, hx⟩ := hx
    obtain ⟨ci2, _, clf2, _, hy⟩ := hy
    rw [← hx, ← hy]
    exact Or.inl hlt

theorem classify_rows_length (reg : String) (hcs : List (Nat × Nat))
    (clfs : List String) :
    (classify_rows reg hcs clfs).length =
      (hcs.map Prod.snd).sum * clfs.length := by
  rw [classify_rows, List.flatMap_def, List.length_flatten, List.map_map]
  have hinner : ∀ hc : Nat × Nat,
      ((List.range hc.2).flatMap (fun ci => clfs.map (fun clf =>
        (⟨hc.1, ci + 1, clf, if reg = "" then none else some reg⟩ : OutRow)))).length
        = hc.2 * clfs.length := by
    intro hc
    rw [List.flatMap_def, List.length_flatten, List.map_map]
    rw [show (List.length ∘ fun ci => clfs.map (fun clf =>
        (⟨hc.1, ci + 1, clf, if reg = "" then none else some reg⟩ : OutRow)))
      = fun _ : Nat => clfs.length from funext (fun ci => by simp)]
    rw [List.map_const', List.sum_replicate, smul_eq_mul, List.length_range]
  rw [show (List.length ∘ fun hc : Nat × Nat =>
      (List.range hc.2).flatMap (fun ci => clfs.map (fun clf =>
        (⟨hc.1, ci + 1, clf, if reg = "" then none else some reg⟩ : OutRow))))
    = fun hc : Nat × Nat => hc.2 * clfs.length from funext hinner]
  rw [((sortAsc_perm hcs).map
    (fun hc : Nat × Nat => hc.2 * clfs.length)).sum_eq]
  exact List.sum_map_mul_right hcs Prod.snd clfs.length

/-- Claim C5 counterexample: in mixed mode with two regressors and two
profile sets, the second regressor's pass restarts at profile-set 1, so
the rows are not in the claimed order (profile-set ascending as the
primary key, regressor as the final tie-breaker), not even weakly. -/
theorem claim_C5_counterexample :
    ¬ (main_rows "mixed" ["CART", "ERT"] ["SVC"] [(1, 1), (2, 1)]).Pairwise
      (fun a b => le4 (claimKey ["SVC"] ["CART", "ERT"] a)
        (claimKey ["SVC"] ["CART", "ERT"] b) = true) := by decide

/-- Claim C5 (amended): the final table has one row per (regressor,
profile-set, cascade, classifier) combination evaluated.  In mixed mode
the rows are strictly ordered by the code's key: regressor in
configured order outermost, then profile-set id ascending, then cascade
id ascending, then classifier in configured order (so the row count is
|regressors| × total cascades × |classifiers|).  Only in classification
mode (no regressor column) do the rows follow the claimed key of
profile-set, cascade, classifier. -/
theorem claim_C5_amended (regs clfs : List String) (hcs : List (Nat × Nat))
    (hregs : regs.Nodup) (hreg0 : "" ∉ regs) (hclfs : clfs.Nodup)
    (hkeys : (hcs.map Prod.fst).Nodup) :
    main_rows "mixed" regs clfs hcs =
      regs.flatMap (fun reg => classify_rows reg hcs clfs) ∧
    (main_rows "mixed" regs clfs hcs).Pairwise
      (fun a b => lt4 (codeKey clfs regs a) (codeKey clfs regs b) = true) ∧
    (main_rows "mixed" regs clfs hcs).length =
      regs.length * ((hcs.map Prod.snd).sum * clfs.length) ∧
    (main_rows "classification" regs clfs hcs).Pairwise
      (fun a b => lt4 (claimKey clfs regs a) (claimKey clfs regs b) = true) := by
  have hfun : (fun reg => if ("mixed" : String) = "mixed" then
      classify_rows reg hcs clfs else []) =
      (fun reg => classify_rows reg hcs clfs) := by
    funext reg
    rw [if_pos rfl]
  have heq : main_rows "mixed" regs clfs hcs =
      regs.flatMap (fun reg => classify_rows reg hcs clfs) := by
    rw [main_rows, if_neg (by decide), hfun]
  refine ⟨heq, ?_, ?_, ?_⟩
  · rw [heq, List.pairwise_flatMap]
    constructor
    · intro reg hreg
      have hne : reg ≠ "" := fun h => hreg0 (h ▸ hreg)
      refine List.Pairwise.imp_of_mem ?_
        (classify_rows_pairwise reg hcs clfs hkeys hclfs)
      intro a b ha hb hab
      have hra := (classify_rows_fields reg hcs clfs a ha).1
      have hrb := (classify_rows_fields reg hcs clfs b hb).1
      rw [if_neg hne] at hra hrb
      simp only [lt4, codeKey, decide_eq_true_eq]
      right
      refine ⟨by rw [hra, hrb], ?_⟩
      rcases hab with h | ⟨h1, h | ⟨h2, h3⟩⟩
      · exact Or.inl h
      · exact Or.inr ⟨h1, Or.inl h⟩
      · exact Or.inr ⟨h1, Or.inr ⟨h2, h3⟩⟩
    · refine List.Pairwise.imp_of_mem ?_ (nodup_pairwise_indexOf regs hregs)
      intro r1 r2 h1 h2 hlt x hx y hy
      have hne1 : r1 ≠ "" := fun h => hreg0 (h ▸ h1)
      have hne2 : r2 ≠ "" := fun h => hreg0 (h ▸ h2)
      have hrx := (classify_rows_fields r1 hcs clfs x hx).1
      have hry := (classify_rows_fields r2 hcs clfs y hy).1
      rw [if_neg hne1] at hrx
      rw [if_neg hne2] at hry
      simp only [lt4, codeKey, decide_eq_true_eq]
      left
      rw [hrx, hry]
      exact hlt
  · rw [heq, List.flatMap_def, List.length_flatten, List.map_map]
    rw [show (List.length ∘ fun reg => classify_rows reg hcs clfs)
      = fun _ : String => (hcs.map Prod.snd).sum * clfs.length from
      funext (fun reg => classify_rows_length reg hcs clfs)]
    rw [List.map_const', List.sum_replicate, smul_eq_mul]
  · rw [main_rows, if_pos rfl]
    refine List.Pairwise.imp_of_mem ?_
      (classify_rows_pairwise "" hcs clfs hkeys hclfs)
    intro a b ha hb hab
    have hra := (classify_rows_fields "" hcs clfs a ha).1
    have hrb := (classify_rows_fields "" hcs clfs b hb).1
    rw [if_pos rfl] at hra hrb
    simp only [lt4, claimKey, decide_eq_true_eq]
    rcases hab with h | ⟨h1, h | ⟨h2, h3⟩⟩
    · exact Or.inl h
    · exact Or.inr ⟨h1, Or.inl h⟩
    · exact Or.inr ⟨h1, Or.inr ⟨h2, Or.inl h3⟩⟩

theorem claim_C5_witness :
    (["CART", "ERT"].Nodup ∧ ("" : String) ∉ ["CART", "ERT"] ∧
      ["SVC"].Nodup ∧ (([((1 : Nat), (1 : Nat)), (2, 1)]).map Prod.fst).Nodup) ∧
    main_rows "mixed" ["CART", "ERT"] ["SVC"] [(1, 1), (2, 1)] =
      ["CART", "ERT"].flatMap
        (fun reg => classify_rows reg [(1, 1), (2, 1)] ["SVC"]) :=
  ⟨⟨by decide, by decide, by decide, by decide⟩,
   (claim_C5_amended ["CART", "ERT"] ["SVC"] [(1, 1), (2, 1)]
     (by decide) (by decide) (by decide) (by decide)).1⟩
